import Mathlib

/-!
Verification of loop analysis, dominance analysis, and trait-based operation
verification of an MLIR-style compiler IR kernel.

The definitions below are shallow embeddings of:
  * `lib/Conversion/AffineToGPU/AffineToGPUPass.cpp` (the loop analysis
    routines: `buildTripCountMapAndOperands`, `getLargestDivisorOfTripCount`,
    `isAccessInvariant`, `isContiguousAccess`,
    `isVectorizableLoopBodyWithOpCond`, `isVectorizableLoopBody`,
    `isInstwiseShiftValid`);
  * `lib/Analysis/Dominance.cpp` (`DominanceInfoBase::properlyDominates` on
    blocks, `DominanceInfo::properlyDominates` on operations);
  * `include/mlir/IR/Module.h` (`Op::verifyInvariants`, `Op::BaseVerifier`,
    and the `Operation` O(1) property queries).

Machine integers are modelled as `Int`/`Nat`; the `uint64_t` cast in the
divisor computation is made explicit with `% 2 ^ 64`.  Collaborator code that
is not among the sources (the `ceilDiv` helper of `Support/MathExtras.h`, the
reachable-affine-apply-op slice, `AffineValueMap::isFunctionOf`, the nested
matchers, LLVM's per-region dominator trees, `Block::findAncestorInstInBlock`,
`Operation::isBeforeInBlock`) is modelled from the specification, as
documented on each such definition.
-/

namespace Mlir

/-! ## Trip count with constant bounds (`buildTripCountMapAndOperands`) -/

/-- Modelled from the spec: ceiling division `⌈lhs / rhs⌉` for positive `rhs`,
the `ceilDiv` helper of `Support/MathExtras.h`, which is not among the
sources.  For `rhs > 0`, `⌈lhs / rhs⌉ = ⌊(lhs + rhs - 1) / rhs⌋`, and
`Int.ediv` is floor division for a positive divisor. -/
def ceilDiv (lhs rhs : Int) : Int :=
  Int.ediv (lhs + rhs - 1) rhs

/-- Result of the trip-count computation: the (constant) affine map, the
trip-count operands, and the operations materialized in the IR. -/
structure TripCountResult where
  tripCountMap : Int
  tripCountOperands : List Nat
  createdOps : List Nat
deriving DecidableEq, Repr

/-- Embeds the constant-bounds branch of `buildTripCountMapAndOperands`
(`AffineToGPUPass.cpp` lines 115-123): `loopSpan = ub - lb`, clamped to zero
when negative, the map is the constant `ceilDiv loopSpan step`, the operand
list is cleared, and no operation is created in the IR. -/
def buildTripCountConstantBounds (lb ub step : Int) : TripCountResult :=
  let loopSpan := ub - lb
  let loopSpan := if loopSpan < 0 then (0 : Int) else loopSpan
  { tripCountMap := ceilDiv loopSpan step
    tripCountOperands := []
    createdOps := [] }

/-! ## Operation property queries (`Operation`, `Module.h`) -/

/-- The declarative property bits of `OperationProperty`. -/
inductive OperationPropertyM where
  | commutative
  | noSideEffect
  | terminator
  | isolatedFromAbove
deriving DecidableEq, Repr

/-- An `AbstractOperation`: the registered description of an operation kind,
exposing its property bitset through `hasProperty`. -/
structure AbstractOperationM where
  hasProperty : OperationPropertyM → Bool

/-- An `Operation` as far as the O(1) property queries are concerned: an
unregistered kind has no `AbstractOperation` (`getAbstractOperation` returns
null). -/
structure OperationM where
  abstractOperation : Option AbstractOperationM

/-- Embeds `Operation::isCommutative` (`Module.h` lines 497-501). -/
def isCommutative (op : OperationM) : Bool :=
  match op.abstractOperation with
  | some absOp => absOp.hasProperty .commutative
  | none => false

/-- Embeds `Operation::hasNoSideEffect` (`Module.h` lines 504-508). -/
def hasNoSideEffect (op : OperationM) : Bool :=
  match op.abstractOperation with
  | some absOp => absOp.hasProperty .noSideEffect
  | none => false

/-- Embeds `Operation::TerminatorStatus` (`Module.h` line 513). -/
inductive TerminatorStatusM where
  | terminator
  | nonTerminator
  | unknown
deriving DecidableEq, Repr

/-- Embeds `Operation::getTerminatorStatus` (`Module.h` lines 516-523). -/
def getTerminatorStatus (op : OperationM) : TerminatorStatusM :=
  match op.abstractOperation with
  | some absOp =>
      if absOp.hasProperty .terminator then .terminator else .nonTerminator
  | none => .unknown

/-- Embeds `Operation::isKnownTerminator` (`Module.h` lines 526-528). -/
def isKnownTerminator (op : OperationM) : Bool :=
  decide (getTerminatorStatus op = .terminator)

/-- Embeds `Operation::isKnownNonTerminator` (`Module.h` lines 531-533). -/
def isKnownNonTerminator (op : OperationM) : Bool :=
  decide (getTerminatorStatus op = .nonTerminator)

/-- Embeds `Operation::isKnownIsolatedFromAbove` (`Module.h` lines 538-542). -/
def isKnownIsolatedFromAbove (op : OperationM) : Bool :=
  match op.abstractOperation with
  | some absOp => absOp.hasProperty .isolatedFromAbove
  | none => false

/-! ## Trait verification composition (`Op::verifyInvariants`, `Module.h`) -/

/-- Embeds `LogicalResult`. -/
inductive LogicalResult where
  | success
  | failure
deriving DecidableEq, Repr

/-- Embeds `failed`. -/
def failed : LogicalResult → Bool
  | .failure => true
  | .success => false

/-- Embeds `Op::BaseVerifier<Traits...>::verifyTrait` (`Module.h` lines
1606-1618): the empty pack succeeds; otherwise the verification is
`failure(failed(First::verifyTrait(op)) || failed(BaseVerifier<Rest...>))`,
so the first failing trait short-circuits the `||`. -/
def baseVerifierVerifyTrait (op : OperationM) :
    List (OperationM → LogicalResult) → LogicalResult
  | [] => .success
  | first :: rest =>
      if failed (first op) || failed (baseVerifierVerifyTrait op rest) then
        .failure
      else .success

/-- Embeds `Op::verifyInvariants` (`Module.h` lines 1577-1581):
`failure(failed(BaseVerifier<Traits...>::verifyTrait(op)) ||
failed(cast<ConcreteType>(op).verify()))`.  The trait checks and the custom
verifier are pure functions of the operation: nothing in the embedding can
mutate the IR. -/
def verifyInvariants (op : OperationM)
    (traits : List (OperationM → LogicalResult))
    (verify : OperationM → LogicalResult) : LogicalResult :=
  if failed (baseVerifierVerifyTrait op traits) || failed (verify op) then
    .failure
  else .success

/-! ## Access invariance and contiguity (`isAccessInvariant`,
`isContiguousAccess`) -/

/-- Modelled from the spec: the affine collaborators of the access-invariance
check, which are not among the sources.  `reachableAffineApplyOps index` is
the backward slice of affine-recombination operations reachable from an index
value (`getReachableAffineApplyOps`), and `isFunctionOfDim0 op iv` is
`AffineValueMap(op).isFunctionOf(0, iv)`.  Values and affine-apply
operations are identified by numeric handles. -/
structure AffineEnv where
  reachableAffineApplyOps : Nat → List Nat
  isFunctionOfDim0 : Nat → Nat → Bool

/-- Embeds `isAccessInvariant` (`AffineToGPUPass.cpp` lines 233-255).  The
first component is the returned boolean; the second records whether the
diagnostic remark was emitted.  The three match arms are, in source order:
no reachable affine-apply op (pointer-inequality test against the induction
variable), more than one (conservative false plus remark), and exactly one
(negated `isFunctionOf` of the composed value map). -/
def isAccessInvariant (env : AffineEnv) (iv index : Nat) : Bool × Bool :=
  match env.reachableAffineApplyOps index with
  | [] => (decide (index ≠ iv), false)
  | [composeOp] => (! env.isFunctionOfDim0 composeOp iv, false)
  | _ :: _ :: _ => (false, true)

/-- A memory access (`LoadOp`/`StoreOp`) as far as `isContiguousAccess` is
concerned: the layout maps of its MemRef type, each represented only by
whether it equals the multi-dimensional identity map (the `AffineMap`
internals are not among the sources), and its index values. -/
structure MemAccessM where
  layoutMapIsIdentity : List Bool
  indices : List Nat
deriving DecidableEq, Repr

/-- Embeds the layout-map rejection of `isContiguousAccess`
(`AffineToGPUPass.cpp` lines 301-305): two or more layout maps, or a single
non-identity one, are rejected. -/
def hasNonTrivialLayout (a : MemAccessM) : Bool :=
  match a.layoutMapIsIdentity with
  | [] => false
  | [m] => ! m
  | _ :: _ :: _ => true

/-- Embeds the index loop of `isContiguousAccess` (`AffineToGPUPass.cpp`
lines 308-321): scan the indices in order keeping the running dimension
counter and the unique varying dimension (-1 when none found yet); a second
varying index aborts with failure. -/
def findUniqueVaryingIndex (env : AffineEnv) (iv : Nat) :
    List Nat → Nat → Int → Option Int
  | [], _, unique => some unique
  | index :: rest, dim, unique =>
      if ! (isAccessInvariant env iv index).1 then
        if unique ≠ -1 then none
        else findUniqueVaryingIndex env iv rest (dim + 1) (dim : Int)
      else findUniqueVaryingIndex env iv rest (dim + 1) unique

/-- Embeds `isContiguousAccess` (`AffineToGPUPass.cpp` lines 288-329).
`none` is the `false` return; `some d` is the `true` return with
`*memRefDim = d`: -1 for an invariant access, else
`numIndices - (uniqueVaryingIndexAlongIv + 1)` (trailing-major). -/
def isContiguousAccess (env : AffineEnv) (iv : Nat) (memoryOp : MemAccessM) :
    Option Int :=
  if hasNonTrivialLayout memoryOp then none
  else
    match findUniqueVaryingIndex env iv memoryOp.indices 0 (-1) with
    | none => none
    | some unique =>
        some (if unique = -1 then -1
              else (memoryOp.indices.length : Int) - (unique + 1))

/-! ## Vectorizability (`isVectorizableLoopBodyWithOpCond`) -/

/-- The classification of an operation kind used by the vectorizability
check: whether it is the conditional construct (`AffineIfOp`), the counted
loop construct (`AffineForOp`), how many regions it holds, whether it is an
already-vectorized memory transfer (`VectorTransferReadOp`/`WriteOp`), and,
when it is a load or store, whether the accessed element type is a vector. -/
structure OpKindM where
  isAffineIf : Bool
  isAffineFor : Bool
  numRegions : Nat
  isVectorTransfer : Bool
  loadOrStore : Option Bool
deriving DecidableEq, Repr

/-- An operation together with all operations nested anywhere inside its
regions (regions and blocks flattened into one list of sub-trees). -/
inductive OpTreeM where
  | node (kind : OpKindM) (nested : List OpTreeM)

/-- The kind of the root operation. -/
def OpTreeM.kind : OpTreeM → OpKindM
  | .node k _ => k

mutual

/-- Every operation of the nest rooted at the given operation, the root
included. -/
def allOps : OpTreeM → List OpTreeM
  | .node k cs => .node k cs :: allOpsList cs

/-- Every operation of the nests rooted at the given operations. -/
def allOpsList : List OpTreeM → List OpTreeM
  | [] => []
  | t :: ts => allOps t ++ allOpsList ts

end

/-- Modelled from the spec: `matcher::Op(p).match(forOp, &matches)` (the
`NestedMatcher` machinery is not among the sources) fills `matches` with
every operation of the nest satisfying the predicate. -/
def matcherCollect (p : OpTreeM → Bool) (root : OpTreeM) : List OpTreeM :=
  (allOps root).filter p

/-- Embeds `matcher::If()`: matches the conditional construct. -/
def isConditionalOp (t : OpTreeM) : Bool :=
  t.kind.isAffineIf

/-- Embeds the unknown-region predicate of
`isVectorizableLoopBodyWithOpCond` (`AffineToGPUPass.cpp` lines 357-360):
an operation holding a region while being neither `AffineIfOp` nor
`AffineForOp`. -/
def isUnknownRegionOp (t : OpTreeM) : Bool :=
  t.kind.numRegions != 0 && !(t.kind.isAffineIf || t.kind.isAffineFor)

/-- Embeds `isVectorTransferReadOrWrite` (`AffineToGPUPass.cpp` lines
337-339). -/
def isVectorTransferOp (t : OpTreeM) : Bool :=
  t.kind.isVectorTransfer

/-- Embeds `matcher::isLoadOrStore`. -/
def isLoadOrStoreOp (t : OpTreeM) : Bool :=
  t.kind.loadOrStore.isSome

/-- Embeds `isVectorElement` (`AffineToGPUPass.cpp` lines 331-335) on a
load/store: whether the MemRef element type is a vector type. -/
def isVectorElementOp (t : OpTreeM) : Bool :=
  t.kind.loadOrStore.getD false

/-- Embeds `isVectorizableLoopBodyWithOpCond` (`AffineToGPUPass.cpp` lines
343-393): any matched conditional, unknown region-holding operation, or
vector transfer vetoes the loop; otherwise every load/store must have a
scalar element type and satisfy the optional caller-supplied predicate. -/
def isVectorizableLoopBodyWithOpCond (loop : OpTreeM)
    (isVectorizableOp : Option (OpTreeM → OpTreeM → Bool)) : Bool :=
  if !(matcherCollect isConditionalOp loop).isEmpty then false
  else if !(matcherCollect isUnknownRegionOp loop).isEmpty then false
  else if !(matcherCollect isVectorTransferOp loop).isEmpty then false
  else
    (matcherCollect isLoadOrStoreOp loop).all (fun op =>
      if isVectorElementOp op then false
      else
        match isVectorizableOp with
        | some f => f loop op
        | none => true)

/-- Embeds `isVectorizableLoopBody` (`AffineToGPUPass.cpp` lines 405-407):
the caller-supplied predicate is null. -/
def isVectorizableLoopBody (loop : OpTreeM) : Bool :=
  isVectorizableLoopBodyWithOpCond loop none

/-! ## Largest divisor of the trip count
(`getLargestDivisorOfTripCount`) -/

/-- Modelled from the spec: one result expression of the trip-count map is
either a compile-time constant or an opaque affine expression carrying its
largest known divisor (`AffineExpr::getLargestKnownDivisor`, which is not
among the sources). -/
inductive AffineExprM where
  | constant (value : Int)
  | nonConstant (largestKnownDivisor : Nat)
deriving DecidableEq, Repr

/-- The largest `uint64_t` value, `std::numeric_limits<uint64_t>::max()`. -/
def uint64Max : Nat := 2 ^ 64 - 1

/-- Embeds the per-result divisor of `getLargestDivisorOfTripCount`
(`AffineToGPUPass.cpp` lines 211-223): a constant trip count is its own
divisor, except that a zero trip count has divisor `2^64 - 1`; a
non-constant expression contributes its largest known divisor.  The
`uint64_t` cast of the constant is the explicit `% 2^64`. -/
def resultDivisor : AffineExprM → Nat
  | .constant v =>
      let tripCount : Nat := (Int.emod v (2 ^ 64)).toNat
      if tripCount = 0 then uint64Max else tripCount
  | .nonConstant d => d

/-- Embeds the GCD accumulation loop of `getLargestDivisorOfTripCount`
(`AffineToGPUPass.cpp` lines 209-228): `Optional<uint64_t> gcd` starts
empty, takes the first divisor, and then folds with
`llvm::GreatestCommonDivisor64`. -/
def gcdFold : Option Nat → List AffineExprM → Option Nat
  | acc, [] => acc
  | acc, e :: rest =>
      let thisGcd := resultDivisor e
      match acc with
      | some g => gcdFold (some (Nat.gcd g thisGcd)) rest
      | none => gcdFold (some thisGcd) rest

/-- Embeds `getLargestDivisorOfTripCount` (`AffineToGPUPass.cpp` lines
198-231) given the trip-count map (`none` when the map is not expressible,
giving 1).  The final `none` arm is unreachable for a nonempty result list,
matching the source assertion that the map has at least one result. -/
def getLargestDivisorOfTripCount : Option (List AffineExprM) → Nat
  | none => 1
  | some results =>
      match gcdFold none results with
      | some g => g
      | none => 1

/-! ## Shift validity (`isInstwiseShiftValid`) -/

/-- One operation of the loop body as far as the shift-validity check is
concerned: for each of its results, the list of that result's users, each
user represented by `Block::findAncestorInstInBlock(*user)` resolved against
the loop body block — `some j` when the user's ancestor operation in the
block is the body operation at index `j`, `none` when no ancestor operation
lies in the block (this resolution is collaborator code not among the
sources, modelled from the spec's "nearest containing operation"). -/
structure ShiftOpM where
  users : List (List (Option Nat))
deriving Inhabited, DecidableEq, Repr

/-- Embeds the per-operation validation loop of `isInstwiseShiftValid`
(`AffineToGPUPass.cpp` lines 433-444): for every result of the operation and
every user, a user whose ancestor operation lies outside the body block
imposes no constraint; otherwise the recorded shift of the ancestor must
equal the operation's own shift.  The `none` arm of the table lookup
corresponds to the source assertion `ancestor expected in map`, which cannot
fire for program-order-valid uses. -/
def shiftUsersOk (shift : Nat) (table : Nat → Option Nat)
    (op : ShiftOpM) : Bool :=
  op.users.all (fun resultUsers =>
    resultUsers.all (fun ancInst =>
      match ancInst with
      | none => true
      | some j =>
          match table j with
          | some s => shift == s
          | none => true))

/-- Embeds the reverse iteration of `isInstwiseShiftValid`
(`AffineToGPUPass.cpp` lines 420-445): with `r` operations still to process
the next one is the operation at index `r - 1` (the largest unprocessed
index, i.e. reverse program order); its shift is recorded in the table
(`try_emplace`) before its results' users are validated. -/
def goShift (body : List ShiftOpM) (shifts : List Nat) :
    Nat → (Nat → Option Nat) → Bool
  | 0, _ => true
  | r + 1, forBodyShift =>
      shiftUsersOk (shifts.getD r 0)
        (fun k => if k = r then some (shifts.getD r 0) else forBodyShift k)
        (body.getD r default) &&
      goShift body shifts r
        (fun k => if k = r then some (shifts.getD r 0) else forBodyShift k)

/-- Embeds `isInstwiseShiftValid` (`AffineToGPUPass.cpp` lines 414-447):
process all body operations in reverse program order starting from an empty
shift table. -/
def isInstwiseShiftValid (body : List ShiftOpM) (shifts : List Nat) : Bool :=
  goShift body shifts body.length (fun _ => none)

/-! ## Dominance (`Dominance.cpp`) -/

/-- One step of IR containment, read from the inside out: a block lies in
region `regionIdx` of the operation at position `opIdx` of the enclosing
block, which is block `blockIdx` of its own region. -/
structure StepM where
  opIdx : Nat
  regionIdx : Nat
  blockIdx : Nat
deriving DecidableEq, Repr

/-- A block, identified by its containment address: the index of its
top-level ancestor block in the function body region, and the chain of
containment steps from this block (head) up to that top-level block. -/
structure BlockIdM where
  top : Nat
  path : List StepM
deriving DecidableEq, Repr

/-- An operation: its containing block and its position in that block's
program order. -/
structure OpIdM where
  blk : BlockIdM
  idx : Nat
deriving DecidableEq, Repr

/-- A region: `none` is the top-level function body region;
`some (op, r)` is region `r` of operation `op` (`Region::getContainingOp`
returns `op`, null for the top). -/
abbrev RegionIdM := Option (OpIdM × Nat)

/-- Embeds `Block::getParent`: the region containing a block, read off the
head of its containment path. -/
def parentRegion (blk : BlockIdM) : RegionIdM :=
  match blk.path with
  | [] => none
  | s :: rest => some (⟨⟨blk.top, rest⟩, s.opIdx⟩, s.regionIdx)

/-- The dominance analysis state: per region, the optionally-computed
dominator tree, abstracted as the proper-dominance relation it answers
(LLVM's `DominatorTreeBase` is collaborator code not among the sources);
`none` models a region absent from `dominanceInfos`. -/
structure DomStateM where
  domInfo : RegionIdM → Option (BlockIdM → BlockIdM → Bool)

/-- Outcome of the containment walk of
`DominanceInfoBase::properlyDominates`: the walk exited the top without
meeting A's region, or it reached A's region at the recorded ancestor
block of B. -/
inductive WalkResM where
  | top
  | found (ancBlk : BlockIdM)
deriving DecidableEq, Repr

/-- Embeds the walk of `DominanceInfoBase::properlyDominates`
(`Dominance.cpp` lines 91-105): starting from B's region (represented by
B's top index and path), repeatedly take the containing operation — null
means the top was exited — and move to that operation's block's region,
stopping when A's region is reached; the reached ancestor block is the
containing operation's block. -/
def walkAux (regionA : RegionIdM) (t : Nat) : List StepM → WalkResM
  | [] => .top
  | s :: rest =>
      if regionA = parentRegion ⟨t, rest⟩ then .found ⟨t, rest⟩
      else walkAux regionA t rest

/-- Embeds the `dominanceInfos` lookup of
`DominanceInfoBase::properlyDominates` (`Dominance.cpp` lines 110-115): a
region without computed dominance information treats everything as
dominated; otherwise the region's dominator tree answers. -/
def domTreeLookup (d : DomStateM) (r : RegionIdM) (a b : BlockIdM) : Bool :=
  match d.domInfo r with
  | none => true
  | some tree => tree a b

/-- Embeds `DominanceInfoBase::properlyDominates` on blocks
(`Dominance.cpp` lines 80-116), parametrized by `IsPostDom`: a block never
properly dominates itself; across regions, walk up from B — exiting the top
answers `IsPostDom`, and otherwise B is rebound to its ancestor block in A's
region, answering true when that ancestor is A itself; finally the
standard per-region dominator-tree query on A's region. -/
def blockProperlyDominates (d : DomStateM) (isPostDom : Bool)
    (a b : BlockIdM) : Bool :=
  if a = b then false
  else if parentRegion a ≠ parentRegion b then
    match walkAux (parentRegion a) b.top b.path with
    | .top => isPostDom
    | .found ancBlk =>
        if a = ancBlk then true
        else domTreeLookup d (parentRegion a) a ancBlk
  else domTreeLookup d (parentRegion a) a b

/-- Modelled from the spec: `Block::findAncestorInstInBlock` (not among the
sources) walks up from an operation through its containing operations and
returns the first one lying in the given block, if any; the recursion reads
one containment step at a time. -/
def findAncestorAux (blk : BlockIdM) (t : Nat) :
    List StepM → Nat → Option OpIdM
  | [], idx => if (⟨t, []⟩ : BlockIdM) = blk then some ⟨⟨t, []⟩, idx⟩ else none
  | s :: rest, idx =>
      if (⟨t, s :: rest⟩ : BlockIdM) = blk then some ⟨⟨t, s :: rest⟩, idx⟩
      else findAncestorAux blk t rest s.opIdx

/-- Modelled from the spec: the ancestor of the operation in the given
block, the operation itself included when it already lies there. -/
def findAncestorInstInBlock (blk : BlockIdM) (op : OpIdM) : Option OpIdM :=
  findAncestorAux blk op.blk.top op.blk.path op.idx

/-- Embeds `DominanceInfo::properlyDominates` on operations
(`Dominance.cpp` lines 126-143; pre-dominance, so the block-level walk
default is false): same block compares program order
(`Operation::isBeforeInBlock`, modelled from the spec as position
comparison); else, when B has an ancestor operation in A's block, the
result is `dominates(a, bAncestor)`, i.e. `a == bAncestor ||
properlyDominates(a, bAncestor)`; otherwise block-level dominance. -/
def opProperlyDominates (d : DomStateM) (a b : OpIdM) : Bool :=
  if hblk : a.blk = b.blk then decide (a.idx < b.idx)
  else
    match hanc : findAncestorInstInBlock a.blk b with
    | some bAncestor => a == bAncestor || opProperlyDominates d a bAncestor
    | none => blockProperlyDominates d false a.blk b.blk
termination_by b.blk.path.length
decreasing_by
  have hspec : ∀ (path : List StepM) (t idx : Nat) (anc : OpIdM),
      findAncestorAux a.blk t path idx = some anc →
      anc.blk = a.blk ∧
        (anc = ⟨⟨t, path⟩, idx⟩ ∨ anc.blk.path.length < path.length) := by
    intro path
    induction path with
    | nil =>
      intro t idx anc h
      simp only [findAncestorAux] at h
      by_cases he : (⟨t, []⟩ : BlockIdM) = a.blk
      · rw [if_pos he] at h
        injection h with h
        subst h
        exact ⟨he, Or.inl rfl⟩
      · rw [if_neg he] at h
        cases h
    | cons s rest ih =>
      intro t idx anc h
      simp only [findAncestorAux] at h
      by_cases he : (⟨t, s :: rest⟩ : BlockIdM) = a.blk
      · rw [if_pos he] at h
        injection h with h
        subst h
        exact ⟨he, Or.inl rfl⟩
      · rw [if_neg he] at h
        obtain ⟨h1, h2⟩ := ih t s.opIdx anc h
        refine ⟨h1, Or.inr ?_⟩
        rcases h2 with h2 | h2
        · rw [h2] at h1
          have : rest.length < (s :: rest).length := by
            simp [List.length_cons]
          calc anc.blk.path.length = rest.length := by rw [h2]
            _ < (s :: rest).length := this
        · calc anc.blk.path.length < rest.length := h2
            _ < (s :: rest).length := by simp [List.length_cons]
  have hanc2 : findAncestorAux a.blk b.blk.top b.blk.path b.idx =
      some bAncestor := hanc
  obtain ⟨h1, h2⟩ := hspec b.blk.path b.blk.top b.idx bAncestor hanc2
  rcases h2 with h2 | h2
  · exfalso
    apply hblk
    rw [h2] at h1
    exact h1.symm
  · exact h2

/-! ## Theorems -/

/-- C1: for a counted loop with compile-time constant bounds and a positive
constant step, the trip-count computation returns the constant
`ceil((upper - lower)/step)` clamped to zero when `upper - lower` is
negative, with an empty operand list and no side-effect operations created;
lower 0, upper 10, step 1 yields 10 and lower 10, upper 4, step 1 yields 0. -/
theorem buildTripCount_constantBounds_spec (lb ub step : Int) (hstep : 0 < step) :
    buildTripCountConstantBounds lb ub step =
      { tripCountMap := max (ceilDiv (ub - lb) step) 0
        tripCountOperands := []
        createdOps := [] } ∧
    (buildTripCountConstantBounds 0 10 1).tripCountMap = 10 ∧
    (buildTripCountConstantBounds 10 4 1).tripCountMap = 0 := by
  refine ⟨?_, by decide, by decide⟩
  unfold buildTripCountConstantBounds
  by_cases h : ub - lb < 0
  · simp only [h, if_true]
    have e1 : ceilDiv 0 step = 0 := by
      unfold ceilDiv
      have : (0 : Int) + step - 1 = step - 1 := by ring
      rw [this]
      exact Int.ediv_eq_zero_of_lt (by omega) (by omega)
    have e2 : ceilDiv (ub - lb) step ≤ 0 := by
      unfold ceilDiv
      calc Int.ediv (ub - lb + step - 1) step
          ≤ Int.ediv (step - 1) step := Int.ediv_le_ediv hstep (by omega)
        _ = 0 := Int.ediv_eq_zero_of_lt (by omega) (by omega)
    rw [e1, max_eq_right e2]
  · simp only [h, if_false]
    have e3 : 0 ≤ ceilDiv (ub - lb) step := by
      unfold ceilDiv
      exact Int.ediv_nonneg (by omega) (by omega)
    rw [max_eq_left e3]

/-- Witness for C1 at lower bound 0, upper bound 10, step 1. -/
theorem buildTripCount_constantBounds_witness :
    buildTripCountConstantBounds 0 10 1 =
      { tripCountMap := max (ceilDiv (10 - 0) 1) 0
        tripCountOperands := []
        createdOps := [] } :=
  (buildTripCount_constantBounds_spec 0 10 1 (by decide)).1

/-- Scanning a list of invariant indices leaves the running state of
`findUniqueVaryingIndex` unchanged. -/
theorem findUnique_all_invariant (env : AffineEnv) (iv : Nat) :
    ∀ (xs : List Nat) (dim : Nat) (u : Int),
      (∀ x ∈ xs, (isAccessInvariant env iv x).1 = true) →
      findUniqueVaryingIndex env iv xs dim u = some u := by
  intro xs
  induction xs with
  | nil => intro dim u _; rfl
  | cons x rest ih =>
    intro dim u hall
    have hx : (isAccessInvariant env iv x).1 = true :=
      hall x (List.mem_cons_self x rest)
    simp only [findUniqueVaryingIndex, hx, Bool.not_true, Bool.false_eq_true,
      if_false]
    exact ih (dim + 1) u (fun y hy => hall y (List.mem_cons_of_mem x hy))

/-- Once a varying dimension has been recorded (the state is no longer -1),
any further varying index makes `findUniqueVaryingIndex` fail. -/
theorem findUnique_second_varying (env : AffineEnv) (iv : Nat) :
    ∀ (xs : List Nat) (dim : Nat) (u : Int), u ≠ -1 →
      (∃ x ∈ xs, (isAccessInvariant env iv x).1 = false) →
      findUniqueVaryingIndex env iv xs dim u = none := by
  intro xs
  induction xs with
  | nil => intro dim u _ h; simp at h
  | cons x rest ih =>
    intro dim u hu hex
    by_cases hx : (isAccessInvariant env iv x).1 = true
    · simp only [findUniqueVaryingIndex, hx, Bool.not_true, Bool.false_eq_true,
        if_false]
      rcases hex with ⟨y, hy, hyv⟩
      rcases List.mem_cons.mp hy with he | hm
      · rw [he] at hyv; rw [hyv] at hx; exact absurd hx (by simp)
      · exact ih (dim + 1) u hu ⟨y, hm, hyv⟩
    · have hx2 : (isAccessInvariant env iv x).1 = false :=
        Bool.eq_false_iff.mpr hx
      simp [findUniqueVaryingIndex, hx2, hu]

/-- Scanning a prefix of invariant indices only advances the dimension
counter. -/
theorem findUnique_skip_invariant (env : AffineEnv) (iv : Nat) :
    ∀ (pre ys : List Nat) (dim : Nat) (u : Int),
      (∀ x ∈ pre, (isAccessInvariant env iv x).1 = true) →
      findUniqueVaryingIndex env iv (pre ++ ys) dim u =
        findUniqueVaryingIndex env iv ys (dim + pre.length) u := by
  intro pre
  induction pre with
  | nil => intro ys dim u _; simp
  | cons x rest ih =>
    intro ys dim u hall
    have hx : (isAccessInvariant env iv x).1 = true :=
      hall x (List.mem_cons_self x rest)
    simp only [List.cons_append, findUniqueVaryingIndex, hx, Bool.not_true,
      Bool.false_eq_true, if_false, List.append_eq]
    rw [ih ys (dim + 1) u (fun y hy => hall y (List.mem_cons_of_mem x hy))]
    congr 1
    simp [List.length_cons]
    omega

/-- Two varying indices anywhere in the list make `findUniqueVaryingIndex`
fail, whatever the rest of the list looks like. -/
theorem findUnique_two_varying (env : AffineEnv) (iv : Nat) :
    ∀ (pre : List Nat) (v : Nat) (mid : List Nat) (w : Nat) (post : List Nat)
      (dim : Nat) (u : Int),
      (isAccessInvariant env iv v).1 = false →
      (isAccessInvariant env iv w).1 = false →
      findUniqueVaryingIndex env iv (pre ++ v :: mid ++ w :: post) dim u =
        none := by
  intro pre
  induction pre with
  | nil =>
    intro v mid w post dim u hv hw
    simp only [List.nil_append, findUniqueVaryingIndex, hv, Bool.not_false,
      if_true]
    by_cases hu : u ≠ -1
    · simp [hu]
    · simp only [hu, if_false]
      exact findUnique_second_varying env iv (mid ++ w :: post) (dim + 1)
        (dim : Int) (by omega) ⟨w, by simp, hw⟩
  | cons x rest ih =>
    intro v mid w post dim u hv hw
    by_cases hx : (isAccessInvariant env iv x).1 = true
    · simp only [List.cons_append, findUniqueVaryingIndex, hx, Bool.not_true,
        Bool.false_eq_true, if_false]
      exact ih v mid w post (dim + 1) u hv hw
    · have hx2 : (isAccessInvariant env iv x).1 = false :=
        Bool.eq_false_iff.mpr hx
      simp only [List.cons_append, findUniqueVaryingIndex, hx2, Bool.not_false,
        if_true]
      by_cases hu : u ≠ -1
      · simp [hu]
      · simp only [hu, if_false]
        exact findUnique_second_varying env iv (rest ++ v :: mid ++ w :: post)
          (dim + 1) (dim : Int) (by omega) ⟨v, by simp, hv⟩

/-- C5: the access-invariance test dispatches on the number of reachable
affine-recombination operations: zero reachable operations give invariance
exactly when the index is not the induction variable itself; exactly one
gives invariance exactly when that operation's value map is not a function of
the induction variable; two or more give a conservative "not invariant" and
emit the diagnostic remark. -/
theorem isAccessInvariant_spec (env : AffineEnv) (iv index : Nat) :
    (env.reachableAffineApplyOps index = [] →
      (((isAccessInvariant env iv index).1 = true ↔ index ≠ iv) ∧
        (isAccessInvariant env iv index).2 = false)) ∧
    (∀ op, env.reachableAffineApplyOps index = [op] →
      (((isAccessInvariant env iv index).1 = true ↔
          ¬ env.isFunctionOfDim0 op iv = true) ∧
        (isAccessInvariant env iv index).2 = false)) ∧
    (∀ op₁ op₂ rest,
      env.reachableAffineApplyOps index = op₁ :: op₂ :: rest →
      ((isAccessInvariant env iv index).1 = false ∧
        (isAccessInvariant env iv index).2 = true)) := by
  refine ⟨?_, ?_, ?_⟩
  · intro h
    unfold isAccessInvariant
    rw [h]
    simp
  · intro op h
    unfold isAccessInvariant
    rw [h]
    simp
  · intro op₁ op₂ rest h
    unfold isAccessInvariant
    rw [h]
    simp

/-- Witness for C5: with no reachable affine-recombination operation, an
index distinct from the induction variable is invariant and no remark is
emitted. -/
theorem isAccessInvariant_witness :
    (((isAccessInvariant ⟨fun _ => [], fun _ _ => false⟩ 0 1).1 = true ↔
        (1 : Nat) ≠ 0) ∧
      (isAccessInvariant ⟨fun _ => [], fun _ _ => false⟩ 0 1).2 = false) :=
  (isAccessInvariant_spec ⟨fun _ => [], fun _ _ => false⟩ 0 1).1 rfl

/-- C2: for an access whose layout map is identity or absent, the
contiguity test returns dim -1 when no index varies with the induction
variable, returns the trailing-major dimension `numIndices - position - 1`
when exactly one index (at `position`) varies, fails when two indices vary,
and an access with a non-identity layout map is rejected outright. -/
theorem isContiguousAccess_spec (env : AffineEnv) (iv : Nat) :
    (∀ a : MemAccessM, hasNonTrivialLayout a = true →
      isContiguousAccess env iv a = none) ∧
    (∀ a : MemAccessM, hasNonTrivialLayout a = false →
      (∀ x ∈ a.indices, (isAccessInvariant env iv x).1 = true) →
      isContiguousAccess env iv a = some (-1)) ∧
    (∀ (a : MemAccessM) (pre : List Nat) (v : Nat) (post : List Nat),
      hasNonTrivialLayout a = false →
      a.indices = pre ++ v :: post →
      (isAccessInvariant env iv v).1 = false →
      (∀ x ∈ pre, (isAccessInvariant env iv x).1 = true) →
      (∀ x ∈ post, (isAccessInvariant env iv x).1 = true) →
      isContiguousAccess env iv a =
        some ((a.indices.length : Int) - ((pre.length : Int) + 1))) ∧
    (∀ (a : MemAccessM) (pre : List Nat) (v : Nat) (mid : List Nat)
       (w : Nat) (post : List Nat),
      a.indices = pre ++ v :: mid ++ w :: post →
      (isAccessInvariant env iv v).1 = false →
      (isAccessInvariant env iv w).1 = false →
      isContiguousAccess env iv a = none) := by
  refine ⟨?_, ?_, ?_, ?_⟩
  · intro a h
    simp [isContiguousAccess, h]
  · intro a hlay hall
    simp only [isContiguousAccess, hlay, Bool.false_eq_true, if_false]
    rw [findUnique_all_invariant env iv a.indices 0 (-1) hall]
    simp
  · intro a pre v post hlay hidx hv hpre hpost
    simp only [isContiguousAccess, hlay, Bool.false_eq_true, if_false, hidx]
    rw [findUnique_skip_invariant env iv pre (v :: post) 0 (-1) hpre]
    simp only [findUniqueVaryingIndex, hv, Bool.not_false, if_true]
    have hne : ¬ ((-1 : Int) ≠ -1) := by simp
    simp only [hne, if_false]
    rw [findUnique_all_invariant env iv post (0 + pre.length + 1)
      ((0 + pre.length : Nat) : Int) hpost]
    have hcast : ((0 + pre.length : Nat) : Int) = (pre.length : Int) := by
      simp
    rw [hcast]
    have hne2 : ¬ ((pre.length : Int) = -1) := by omega
    simp only [hne2, if_false]
  · intro a pre v mid w post hidx hv hw
    by_cases hlay : hasNonTrivialLayout a = true
    · simp [isContiguousAccess, hlay]
    · have hlay2 : hasNonTrivialLayout a = false :=
        Bool.eq_false_iff.mpr hlay
      simp only [isContiguousAccess, hlay2, Bool.false_eq_true, if_false,
        hidx]
      rw [findUnique_two_varying env iv pre v mid w post 0 (-1) hv hw]

/-- Witness for C2: an access with two index expressions where only the
second (the one closest to the last dimension) varies with the induction
variable reports dim 0. -/
theorem isContiguousAccess_witness :
    isContiguousAccess ⟨fun _ => [], fun _ _ => false⟩ 0 ⟨[], [1, 0]⟩ =
      some 0 := by
  have h := (isContiguousAccess_spec ⟨fun _ => [], fun _ _ => false⟩ 0).2.2.1
    ⟨[], [1, 0]⟩ [1] 0 [] rfl rfl (by decide) (by decide) (by decide)
  simpa using h

/-- A matched operation makes the collected match list nonempty. -/
theorem matcherCollect_nonempty (p : OpTreeM → Bool) (root op : OpTreeM)
    (hmem : op ∈ allOps root) (hp : p op = true) :
    (matcherCollect p root).isEmpty = false := by
  unfold matcherCollect
  have hin : op ∈ (allOps root).filter p := List.mem_filter.mpr ⟨hmem, hp⟩
  cases hfe : (allOps root).filter p with
  | nil => rw [hfe] at hin; simp at hin
  | cons a l => rfl

/-- C3: a counted loop whose nest contains a conditional construct, an
operation with a region of an unrecognized construct, or an
already-vectorized memory transfer is never vectorizable, for every
caller-supplied per-operation predicate and hence also for the
predicate-free entry point; the memory-access pattern is never consulted. -/
theorem vectorizable_veto (loop : OpTreeM)
    (h : ∃ op ∈ allOps loop, isConditionalOp op = true ∨
      isUnknownRegionOp op = true ∨ isVectorTransferOp op = true) :
    (∀ cond, isVectorizableLoopBodyWithOpCond loop cond = false) ∧
    isVectorizableLoopBody loop = false := by
  have hmain : ∀ cond, isVectorizableLoopBodyWithOpCond loop cond = false := by
    intro cond
    rcases h with ⟨op, hmem, hcase⟩
    rcases hcase with hc | hc | hc
    · have h1 := matcherCollect_nonempty isConditionalOp loop op hmem hc
      simp [isVectorizableLoopBodyWithOpCond, h1]
    · have h2 := matcherCollect_nonempty isUnknownRegionOp loop op hmem hc
      by_cases h1 : (matcherCollect isConditionalOp loop).isEmpty
      · simp [isVectorizableLoopBodyWithOpCond, h1, h2]
      · simp [isVectorizableLoopBodyWithOpCond, Bool.eq_false_iff.mpr h1]
    · have h3 := matcherCollect_nonempty isVectorTransferOp loop op hmem hc
      by_cases h1 : (matcherCollect isConditionalOp loop).isEmpty
      · by_cases h2 : (matcherCollect isUnknownRegionOp loop).isEmpty
        · simp [isVectorizableLoopBodyWithOpCond, h1, h2, h3]
        · simp [isVectorizableLoopBodyWithOpCond, h1,
            Bool.eq_false_iff.mpr h2]
      · simp [isVectorizableLoopBodyWithOpCond, Bool.eq_false_iff.mpr h1]
  exact ⟨hmain, hmain none⟩

/-- Witness for C3: a loop whose body holds a conditional is not
vectorizable. -/
theorem vectorizable_veto_witness :
    isVectorizableLoopBody
      (.node ⟨false, true, 1, false, none⟩
        [.node ⟨true, false, 1, false, none⟩ []]) = false :=
  (vectorizable_veto _
    ⟨.node ⟨true, false, 1, false, none⟩ [],
      by simp [allOps, allOpsList], Or.inl rfl⟩).2

/-- Folding the GCD loop from a seeded accumulator computes the left fold of
`Nat.gcd` over the per-result divisors. -/
theorem gcdFold_some (xs : List AffineExprM) :
    ∀ g : Nat, gcdFold (some g) xs =
      some ((xs.map resultDivisor).foldl Nat.gcd g) := by
  induction xs with
  | nil => intro g; rfl
  | cons e rest ih =>
    intro g
    simp only [gcdFold, List.map_cons, List.foldl_cons]
    exact ih (Nat.gcd g (resultDivisor e))

/-- C4: per result of the trip-count map, the divisor is the trip count
itself when the result is a constant — a constant zero yielding the maximum
representable value `2^64 - 1` — and otherwise the expression's largest
known divisor; the overall answer is the GCD of the per-result divisors.  In
particular a constant trip count of 12 yields 12. -/
theorem largestDivisor_spec :
    (∀ (e : AffineExprM) (rest : List AffineExprM),
      getLargestDivisorOfTripCount (some (e :: rest)) =
        (rest.map resultDivisor).foldl Nat.gcd (resultDivisor e)) ∧
    resultDivisor (.constant 12) = 12 ∧
    resultDivisor (.constant 0) = 2 ^ 64 - 1 ∧
    (∀ d, resultDivisor (.nonConstant d) = d) ∧
    (∀ v : Int, 0 < v → v < 2 ^ 64 → resultDivisor (.constant v) = v.toNat) := by
  refine ⟨?_, by decide, by decide, fun d => rfl, ?_⟩
  · intro e rest
    have h1 : gcdFold none (e :: rest) =
        some ((rest.map resultDivisor).foldl Nat.gcd (resultDivisor e)) := by
      simp only [gcdFold]
      exact gcdFold_some rest (resultDivisor e)
    simp [getLargestDivisorOfTripCount, h1]
  · intro v h1 h2
    have he : Int.emod v (2 ^ 64) = v := Int.emod_eq_of_lt (by omega) h2
    simp only [resultDivisor, he]
    have hne : v.toNat ≠ 0 := by omega
    simp [hne]

/-- Witness for C4: a constant trip count of 12 contributes divisor 12. -/
theorem largestDivisor_witness :
    resultDivisor (.constant 12) = Int.toNat 12 :=
  largestDivisor_spec.2.2.2.2 12 (by decide) (by decide)

/-- The per-operation user validation succeeds exactly when every in-block
user's recorded value agrees with the operation's shift, provided the table
resolves every in-block user. -/
theorem shiftUsersOk_iff (shift : Nat) (table : Nat → Option Nat)
    (op : ShiftOpM) (vals : Nat → Nat)
    (htable : ∀ ru ∈ op.users, ∀ anc ∈ ru, ∀ j, anc = some j →
      table j = some (vals j)) :
    (shiftUsersOk shift table op = true ↔
      ∀ ru ∈ op.users, ∀ anc ∈ ru, ∀ j, anc = some j → vals j = shift) := by
  unfold shiftUsersOk
  rw [List.all_eq_true]
  constructor
  · intro h ru hru anc hanc j hj
    have h2 := List.all_eq_true.mp (h ru hru) anc hanc
    rw [hj] at h2
    have h2b : (match table j with
        | some s => shift == s
        | none => true) = true := h2
    rw [htable ru hru anc hanc j hj] at h2b
    have h2c : (shift == vals j) = true := h2b
    simp only [beq_iff_eq] at h2c
    exact h2c.symm
  · intro h ru hru
    rw [List.all_eq_true]
    intro anc hanc
    cases anc with
    | none => rfl
    | some j =>
      have heq := h ru hru (some j) hanc j rfl
      show (match table j with
        | some s => shift == s
        | none => true) = true
      rw [htable ru hru (some j) hanc j rfl]
      show (shift == vals j) = true
      simp [heq]

/-- The reverse processing of the last `r` unprocessed operations succeeds
exactly when the shift constraint holds for every operation of index below
`r`, given that the table already holds the shifts of the processed suffix
and that every in-block user ancestor points at or after its definer. -/
theorem goShift_iff (body : List ShiftOpM) (shifts : List Nat)
    (hvalid : ∀ i, i < body.length →
      ∀ ru ∈ (body.getD i default).users, ∀ anc ∈ ru, ∀ j,
        anc = some j → i ≤ j ∧ j < body.length) :
    ∀ r : Nat, r ≤ body.length → ∀ map : Nat → Option Nat,
    (∀ k, map k = if r ≤ k ∧ k < body.length then
      some (shifts.getD k 0) else none) →
    (goShift body shifts r map = true ↔
      ∀ i, i < r → ∀ ru ∈ (body.getD i default).users, ∀ anc ∈ ru, ∀ j,
        anc = some j → shifts.getD j 0 = shifts.getD i 0) := by
  intro r
  induction r with
  | zero =>
    intro _ map _
    simp [goShift]
  | succ r ih =>
    intro hr map hmap
    have hrn : r < body.length := by omega
    have hmap' : ∀ k, (if k = r then some (shifts.getD r 0) else map k) =
        if r ≤ k ∧ k < body.length then some (shifts.getD k 0) else none := by
      intro k
      by_cases hk : k = r
      · subst hk
        rw [if_pos rfl, if_pos ⟨le_refl k, hrn⟩]
      · rw [if_neg hk, hmap k]
        by_cases h1 : r + 1 ≤ k ∧ k < body.length
        · rw [if_pos h1, if_pos ⟨by omega, h1.2⟩]
        · rw [if_neg h1, if_neg (by omega)]
    have htable : ∀ ru ∈ (body.getD r default).users, ∀ anc ∈ ru, ∀ j,
        anc = some j →
        (if j = r then some (shifts.getD r 0) else map j) =
          some (shifts.getD j 0) := by
      intro ru hru anc hanc j hj
      rw [hmap' j]
      obtain ⟨h1, h2⟩ := hvalid r hrn ru hru anc hanc j hj
      rw [if_pos ⟨h1, h2⟩]
    simp only [goShift]
    rw [Bool.and_eq_true]
    rw [shiftUsersOk_iff (shifts.getD r 0) _ _ (fun j => shifts.getD j 0)
      htable]
    rw [ih (by omega) _ hmap']
    constructor
    · rintro ⟨hok, hrest⟩ i hi ru hru anc hanc j hj
      by_cases hir : i = r
      · subst hir
        exact hok ru hru anc hanc j hj
      · exact hrest i (by omega) ru hru anc hanc j hj
    · intro h
      exact ⟨fun ru hru anc hanc j hj => h r (by omega) ru hru anc hanc j hj,
        fun i hi ru hru anc hanc j hj => h i (by omega) ru hru anc hanc j hj⟩

/-- C6: provided every in-block user ancestor points at or after its definer
in program order (which is what the reverse processing order assumes: a
user's shift is recorded before its definer is checked), the shift-validity
check returns true if and only if, for every result of every body operation,
every user whose ancestor operation lies within the loop body block is
assigned exactly the shift of the defining operation; users whose ancestors
lie outside the block impose no constraint, and a single mismatch
invalidates the whole plan. -/
theorem isInstwiseShiftValid_iff (body : List ShiftOpM) (shifts : List Nat)
    (_hlen : shifts.length = body.length)
    (hvalid : ∀ i, i < body.length →
      ∀ ru ∈ (body.getD i default).users, ∀ anc ∈ ru, ∀ j,
        anc = some j → i ≤ j ∧ j < body.length) :
    (isInstwiseShiftValid body shifts = true ↔
      ∀ i, i < body.length → ∀ ru ∈ (body.getD i default).users,
        ∀ anc ∈ ru, ∀ j, anc = some j →
          shifts.getD j 0 = shifts.getD i 0) := by
  unfold isInstwiseShiftValid
  exact goShift_iff body shifts hvalid body.length (le_refl _) (fun _ => none)
    (fun k => by
      rw [if_neg]
      omega)

/-- Witness for C6 on a one-operation body with no users: the shift plan is
valid. -/
theorem isInstwiseShiftValid_witness :
    isInstwiseShiftValid [(⟨[]⟩ : ShiftOpM)] [3] = true := by
  refine (isInstwiseShiftValid_iff [⟨[]⟩] [3] rfl ?_).mpr ?_
  · intro i hi ru hru anc hanc j hj
    have hi0 : i = 0 := by
      simp only [List.length_singleton] at hi
      omega
    subst hi0
    simp at hru
  · intro i hi ru hru anc hanc j hj
    have hi0 : i = 0 := by
      simp only [List.length_singleton] at hi
      omega
    subst hi0
    simp at hru

/-- Blocks lying in the same region have containment paths of the same
length. -/
theorem parentRegion_eq_length {x y : BlockIdM}
    (h : parentRegion x = parentRegion y) : x.path.length = y.path.length := by
  unfold parentRegion at h
  cases hx : x.path with
  | nil =>
    cases hy : y.path with
    | nil => simp
    | cons s rest => rw [hx, hy] at h; simp at h
  | cons s rest =>
    cases hy : y.path with
    | nil => rw [hx, hy] at h; simp at h
    | cons s2 rest2 =>
      rw [hx, hy] at h
      simp only [Option.some.injEq, Prod.mk.injEq, OpIdM.mk.injEq,
        BlockIdM.mk.injEq] at h
      simp [h.1.1.2]

/-- When the containment walk finds A's region, A's path is strictly
shorter than the walked path. -/
theorem walkAux_found_length (x : BlockIdM) :
    ∀ (t : Nat) (path : List StepM) (anc : BlockIdM),
      walkAux (parentRegion x) t path = .found anc →
      x.path.length < path.length := by
  intro t path
  induction path with
  | nil => intro anc h; simp [walkAux] at h
  | cons s rest ih =>
    intro anc h
    simp only [walkAux] at h
    by_cases hr : parentRegion x = parentRegion ⟨t, rest⟩
    · have hlen : x.path.length = rest.length := parentRegion_eq_length hr
      simp only [List.length_cons]
      omega
    · rw [if_neg hr] at h
      have := ih anc h
      simp only [List.length_cons]
      omega

/-- Case analysis of a successful block-level pre-dominance query: the
blocks differ, and either they lie in the same region and its dominator
lookup answered true, or A's region is a strict ancestor of B's. -/
theorem blockPD_true_cases (d : DomStateM) (x y : BlockIdM)
    (h : blockProperlyDominates d false x y = true) :
    x ≠ y ∧
      ((parentRegion x = parentRegion y ∧
          domTreeLookup d (parentRegion x) x y = true) ∨
        (parentRegion x ≠ parentRegion y ∧
          x.path.length < y.path.length)) := by
  unfold blockProperlyDominates at h
  by_cases hxy : x = y
  · rw [if_pos hxy] at h; simp at h
  · rw [if_neg hxy] at h
    refine ⟨hxy, ?_⟩
    by_cases hr : parentRegion x ≠ parentRegion y
    · rw [if_pos hr] at h
      cases hw : walkAux (parentRegion x) y.top y.path with
      | top => rw [hw] at h; simp at h
      | found anc =>
        exact Or.inr ⟨hr, walkAux_found_length x y.top y.path anc hw⟩
    · rw [if_neg hr] at h
      exact Or.inl ⟨Classical.not_not.mp hr, h⟩

/-- Asymmetry of block-level pre-dominance, given that every region has
computed dominance information whose relation is asymmetric. -/
theorem blockPD_asym (d : DomStateM)
    (hinfo : ∀ r, (d.domInfo r).isSome = true)
    (hasym : ∀ r rel, d.domInfo r = some rel →
      ∀ x y, rel x y = true → rel y x = true → False)
    (x y : BlockIdM)
    (h1 : blockProperlyDominates d false x y = true)
    (h2 : blockProperlyDominates d false y x = true) : False := by
  obtain ⟨hne1, hc1⟩ := blockPD_true_cases d x y h1
  obtain ⟨hne2, hc2⟩ := blockPD_true_cases d y x h2
  rcases hc1 with ⟨hreq1, hl1⟩ | ⟨hrne1, hlen1⟩
  · rcases hc2 with ⟨hreq2, hl2⟩ | ⟨hrne2, hlen2⟩
    · obtain ⟨rel, hrel⟩ :=
        Option.isSome_iff_exists.mp (hinfo (parentRegion x))
      unfold domTreeLookup at hl1 hl2
      rw [hrel] at hl1
      rw [hreq2, hrel] at hl2
      exact hasym (parentRegion x) rel hrel x y hl1 hl2
    · exact hrne2 hreq1.symm
  · rcases hc2 with ⟨hreq2, hl2⟩ | ⟨hrne2, hlen2⟩
    · exact hrne1 hreq2.symm
    · omega

/-- The properties of a successful ancestor search (stated on the worker
`findAncestorAux`): the returned operation lies in the searched block, and
it is the searched operation itself or a strictly shallower ancestor. -/
theorem findAncestorAux_spec (blk : BlockIdM) :
    ∀ (path : List StepM) (t idx : Nat) (anc : OpIdM),
      findAncestorAux blk t path idx = some anc →
      anc.blk = blk ∧
        (anc = ⟨⟨t, path⟩, idx⟩ ∨ anc.blk.path.length < path.length) := by
  intro path
  induction path with
  | nil =>
    intro t idx anc h
    simp only [findAncestorAux] at h
    by_cases he : (⟨t, []⟩ : BlockIdM) = blk
    · rw [if_pos he] at h
      injection h with h
      subst h
      exact ⟨he, Or.inl rfl⟩
    · rw [if_neg he] at h
      cases h
  | cons s rest ih =>
    intro t idx anc h
    simp only [findAncestorAux] at h
    by_cases he : (⟨t, s :: rest⟩ : BlockIdM) = blk
    · rw [if_pos he] at h
      injection h with h
      subst h
      exact ⟨he, Or.inl rfl⟩
    · rw [if_neg he] at h
      obtain ⟨h1, h2⟩ := ih t s.opIdx anc h
      refine ⟨h1, Or.inr ?_⟩
      rcases h2 with h2 | h2
      · have : anc.blk.path.length = rest.length := by rw [h2]
        simp only [List.length_cons]
        omega
      · simp only [List.length_cons]
        omega

/-- A successful ancestor search from an operation outside the target block
lands in the target block, which is a strict ancestor (shorter path). -/
theorem findAncestor_ne_lt (blk : BlockIdM) (op anc : OpIdM)
    (h : findAncestorInstInBlock blk op = some anc) (hne : blk ≠ op.blk) :
    anc.blk = blk ∧ blk.path.length < op.blk.path.length := by
  have h2 : findAncestorAux blk op.blk.top op.blk.path op.idx = some anc := h
  obtain ⟨ha, hb⟩ := findAncestorAux_spec blk op.blk.path op.blk.top op.idx
    anc h2
  rcases hb with hb | hb
  · exfalso
    apply hne
    rw [hb] at ha
    exact ha.symm
  · rw [ha] at hb
    exact ⟨ha, hb⟩

/-- C7: for blocks A and B in different regions, the cross-region dominance
query walks up from B's region; exiting the top yields A's top-level status
(the `IsPostDom` parameter: true for post-dominance, false for
pre-dominance); reaching A's region with B's ancestor block equal to A
yields true; and when A's region has no computed dominator tree the answer
defaults to true. -/
theorem blockProperlyDominates_crossRegion (d : DomStateM)
    (isPostDom : Bool) (a b : BlockIdM)
    (hreg : parentRegion a ≠ parentRegion b) :
    (walkAux (parentRegion a) b.top b.path = .top →
      blockProperlyDominates d isPostDom a b = isPostDom) ∧
    (∀ ancBlk, walkAux (parentRegion a) b.top b.path = .found ancBlk →
      a = ancBlk →
      blockProperlyDominates d isPostDom a b = true) ∧
    (∀ ancBlk, walkAux (parentRegion a) b.top b.path = .found ancBlk →
      a ≠ ancBlk → d.domInfo (parentRegion a) = none →
      blockProperlyDominates d isPostDom a b = true) := by
  have hab : a ≠ b := by
    intro h
    rw [h] at hreg
    exact hreg rfl
  unfold blockProperlyDominates
  rw [if_neg hab, if_pos hreg]
  refine ⟨?_, ?_, ?_⟩
  · intro hw; rw [hw]
  · intro ancBlk hw heq
    rw [hw]
    show (if a = ancBlk then true
      else domTreeLookup d (parentRegion a) a ancBlk) = true
    rw [if_pos heq]
  · intro ancBlk hw hne hnone
    rw [hw]
    show (if a = ancBlk then true
      else domTreeLookup d (parentRegion a) a ancBlk) = true
    rw [if_neg hne]
    unfold domTreeLookup
    rw [hnone]

/-- Witness for C7: the entry block of a nested region is treated as
dominated-by default when the enclosing region has no recorded dominator
tree. -/
theorem blockProperlyDominates_crossRegion_witness :
    blockProperlyDominates ⟨fun _ => none⟩ false ⟨0, []⟩
      ⟨1, [⟨0, 0, 0⟩]⟩ = true :=
  (blockProperlyDominates_crossRegion ⟨fun _ => none⟩ false ⟨0, []⟩
    ⟨1, [⟨0, 0, 0⟩]⟩ (by decide)).2.2 ⟨1, []⟩ (by decide) (by decide) rfl

/-- C8: with dominance recomputed (every region has computed information)
and each per-region dominator relation asymmetric, operation-level proper
dominance never holds in both directions for distinct operations, and both
operation-level and block-level proper dominance are irreflexive. -/
theorem opProperlyDominates_asymm (d : DomStateM)
    (hinfo : ∀ r, (d.domInfo r).isSome = true)
    (hasym : ∀ r rel, d.domInfo r = some rel →
      ∀ x y, rel x y = true → rel y x = true → False)
    (a b : OpIdM) (hab : a ≠ b) :
    (opProperlyDominates d a b = false ∨
      opProperlyDominates d b a = false) ∧
    opProperlyDominates d a a = false ∧
    blockProperlyDominates d false a.blk a.blk = false := by
  have hirreflB : ∀ c : BlockIdM, blockProperlyDominates d false c c = false := by
    intro c
    unfold blockProperlyDominates
    rw [if_pos rfl]
  have hirreflO : ∀ c : OpIdM, opProperlyDominates d c c = false := by
    intro c
    unfold opProperlyDominates
    rw [dif_pos rfl]
    simp
  have hmain : opProperlyDominates d a b = true →
      opProperlyDominates d b a = true → False := by
    intro h1 h2
    by_cases hblk : a.blk = b.blk
    · have hblk' : b.blk = a.blk := hblk.symm
      unfold opProperlyDominates at h1 h2
      rw [dif_pos hblk] at h1
      rw [dif_pos hblk'] at h2
      simp only [decide_eq_true_eq] at h1 h2
      omega
    · have hblk' : ¬ b.blk = a.blk := fun h => hblk h.symm
      unfold opProperlyDominates at h1 h2
      rw [dif_neg hblk] at h1
      rw [dif_neg hblk'] at h2
      cases hfa1 : findAncestorInstInBlock a.blk b with
      | some bAnc =>
        have hlen1 : a.blk.path.length < b.blk.path.length :=
          (findAncestor_ne_lt a.blk b bAnc hfa1 hblk).2
        cases hfa2 : findAncestorInstInBlock b.blk a with
        | some aAnc =>
          have hlen2 : b.blk.path.length < a.blk.path.length :=
            (findAncestor_ne_lt b.blk a aAnc hfa2 hblk').2
          omega
        | none =>
          rw [hfa2] at h2
          obtain ⟨_, hc⟩ := blockPD_true_cases d b.blk a.blk h2
          rcases hc with ⟨hreq, _⟩ | ⟨_, hlt⟩
          · have := parentRegion_eq_length hreq
            omega
          · omega
      | none =>
        rw [hfa1] at h1
        cases hfa2 : findAncestorInstInBlock b.blk a with
        | some aAnc =>
          have hlen2 : b.blk.path.length < a.blk.path.length :=
            (findAncestor_ne_lt b.blk a aAnc hfa2 hblk').2
          obtain ⟨_, hc⟩ := blockPD_true_cases d a.blk b.blk h1
          rcases hc with ⟨hreq, _⟩ | ⟨_, hlt⟩
          · have := parentRegion_eq_length hreq
            omega
          · omega
        | none =>
          rw [hfa2] at h2
          exact blockPD_asym d hinfo hasym a.blk b.blk h1 h2
  refine ⟨?_, hirreflO a, hirreflB a.blk⟩
  by_cases hc : opProperlyDominates d a b = false
  · exact Or.inl hc
  · right
    by_cases hc2 : opProperlyDominates d b a = false
    · exact hc2
    · exact absurd (hmain (Bool.eq_true_of_ne_false hc)
        (Bool.eq_true_of_ne_false hc2)) id

/-- Witness for C8 on two distinct operations of one block, with a computed
empty dominator relation everywhere. -/
theorem opProperlyDominates_asymm_witness :
    ((opProperlyDominates ⟨fun _ => some (fun _ _ => false)⟩
        ⟨⟨0, []⟩, 0⟩ ⟨⟨0, []⟩, 1⟩ = false ∨
      opProperlyDominates ⟨fun _ => some (fun _ _ => false)⟩
        ⟨⟨0, []⟩, 1⟩ ⟨⟨0, []⟩, 0⟩ = false) ∧
      opProperlyDominates ⟨fun _ => some (fun _ _ => false)⟩
        ⟨⟨0, []⟩, 0⟩ ⟨⟨0, []⟩, 0⟩ = false ∧
      blockProperlyDominates ⟨fun _ => some (fun _ _ => false)⟩ false
        (⟨⟨0, []⟩, 0⟩ : OpIdM).blk (⟨⟨0, []⟩, 0⟩ : OpIdM).blk = false) :=
  opProperlyDominates_asymm ⟨fun _ => some (fun _ _ => false)⟩
    (fun _ => rfl)
    (by
      intro r rel h x y hxy hyx
      injection h with h
      subst h
      simp at hxy)
    ⟨⟨0, []⟩, 0⟩ ⟨⟨0, []⟩, 1⟩ (by decide)

/-- C9: `verifyInvariants` succeeds exactly when every declared trait check
succeeds and the custom verifier succeeds; moreover, with the traits split as
`pre ++ t :: post` where every check in `pre` succeeds and `t` fails, the
result is failure and is independent of the later trait checks and of the
custom verifier (they are short-circuited away and cannot influence the
result).  All checks are pure functions, so no IR mutation can occur. -/
theorem verifyInvariants_spec (op : OperationM)
    (traits : List (OperationM → LogicalResult))
    (verify : OperationM → LogicalResult) :
    (verifyInvariants op traits verify = .success ↔
      ((∀ t ∈ traits, t op = .success) ∧ verify op = .success)) ∧
    (∀ pre t post₁ post₂ v₁ v₂,
      (∀ c ∈ pre, c op = .success) → t op = .failure →
      verifyInvariants op (pre ++ t :: post₁) v₁ = .failure ∧
      verifyInvariants op (pre ++ t :: post₁) v₁ =
        verifyInvariants op (pre ++ t :: post₂) v₂) := by
  have hbase : ∀ ts, baseVerifierVerifyTrait op ts = .success ↔
      ∀ t ∈ ts, t op = .success := by
    intro ts
    induction ts with
    | nil => simp [baseVerifierVerifyTrait]
    | cons c rest ih =>
      simp only [baseVerifierVerifyTrait, List.mem_cons]
      by_cases hc : failed (c op)
      · simp only [hc, Bool.true_or, if_true]
        constructor
        · intro h; exact absurd h (by simp)
        · intro h
          have := h c (Or.inl rfl)
          cases hcv : c op <;> simp [hcv, failed] at hc this
      · simp only [hc, Bool.false_or]
        have hcs : c op = .success := by
          cases hcv : c op <;> simp [hcv, failed] at hc ⊢
        by_cases hr : failed (baseVerifierVerifyTrait op rest)
        · simp only [hr, if_true]
          constructor
          · intro h; exact absurd h (by simp)
          · intro h
            have : baseVerifierVerifyTrait op rest = .success :=
              ih.mpr (fun t ht => h t (Or.inr ht))
            rw [this] at hr; simp [failed] at hr
        · simp only [hr, if_false]
          have : baseVerifierVerifyTrait op rest = .success := by
            cases hrv : baseVerifierVerifyTrait op rest <;>
              simp [hrv, failed] at hr ⊢
          constructor
          · intro _
            intro t ht
            rcases ht with he | hm
            · rw [he]; exact hcs
            · exact (ih.mp this) t hm
          · intro _; rfl
  have hfail : ∀ pre (t : OperationM → LogicalResult) post,
      (∀ c ∈ pre, c op = .success) → t op = .failure →
      baseVerifierVerifyTrait op (pre ++ t :: post) = .failure := by
    intro pre t post hpre ht
    induction pre with
    | nil => simp [baseVerifierVerifyTrait, ht, failed]
    | cons c rest ih =>
      have hcs : c op = .success := hpre c (List.mem_cons_self c rest)
      have := ih (fun d hd => hpre d (List.mem_cons_of_mem c hd))
      simp [baseVerifierVerifyTrait, hcs, failed, this]
  constructor
  · unfold verifyInvariants
    by_cases hb : failed (baseVerifierVerifyTrait op traits)
    · simp only [hb, Bool.true_or, if_true]
      constructor
      · intro h; exact absurd h (by simp)
      · rintro ⟨h1, _⟩
        have := (hbase traits).mpr h1
        rw [this] at hb; simp [failed] at hb
    · simp only [hb, Bool.false_or]
      have hbs : baseVerifierVerifyTrait op traits = .success := by
        cases hbv : baseVerifierVerifyTrait op traits <;>
          simp [hbv, failed] at hb ⊢
      by_cases hv : failed (verify op)
      · simp only [hv, if_true]
        constructor
        · intro h; exact absurd h (by simp)
        · rintro ⟨_, h2⟩; rw [h2] at hv; simp [failed] at hv
      · simp only [hv, if_false]
        have hvs : verify op = .success := by
          cases hvv : verify op <;> simp [hvv, failed] at hv ⊢
        exact ⟨fun _ => ⟨(hbase traits).mp hbs, hvs⟩, fun _ => rfl⟩
  · intro pre t post₁ post₂ v₁ v₂ hpre ht
    have h1 := hfail pre t post₁ hpre ht
    have h2 := hfail pre t post₂ hpre ht
    constructor
    · unfold verifyInvariants
      simp [h1, failed]
    · unfold verifyInvariants
      simp [h1, h2, failed]

/-- Witness for C9: a single always-failing trait makes verification fail
whatever the custom verifier is, and verification with no traits succeeds
exactly when the custom verifier does. -/
theorem verifyInvariants_witness :
    verifyInvariants ⟨none⟩ [] (fun _ => .success) = .success ∧
    verifyInvariants ⟨none⟩ ([] ++ (fun _ => .failure) :: [])
      (fun _ => .success) = .failure := by
  constructor
  · exact (verifyInvariants_spec ⟨none⟩ [] (fun _ => .success)).1.mpr
      ⟨by intro t ht; simp at ht, rfl⟩
  · exact ((verifyInvariants_spec ⟨none⟩ [] (fun _ => .success)).2
      [] (fun _ => .failure) [] [] (fun _ => .success) (fun _ => .success)
      (by intro c hc; simp at hc) rfl).1

/-- C10: for an operation of an unregistered kind (no `AbstractOperation`),
every O(1) property query answers the conservative default: `isCommutative`,
`hasNoSideEffect` and `isKnownIsolatedFromAbove` are false,
`getTerminatorStatus` is `Unknown`, so `isKnownTerminator` and
`isKnownNonTerminator` are both false. -/
theorem unregistered_property_defaults (op : OperationM)
    (h : op.abstractOperation = none) :
    isCommutative op = false ∧
    hasNoSideEffect op = false ∧
    isKnownIsolatedFromAbove op = false ∧
    getTerminatorStatus op = .unknown ∧
    isKnownTerminator op = false ∧
    isKnownNonTerminator op = false := by
  unfold isCommutative hasNoSideEffect isKnownIsolatedFromAbove
    isKnownTerminator isKnownNonTerminator getTerminatorStatus
  rw [h]
  simp

/-- Witness for C10 at a concrete unregistered operation. -/
theorem unregistered_property_defaults_witness :
    isCommutative ⟨none⟩ = false ∧
    hasNoSideEffect ⟨none⟩ = false ∧
    isKnownIsolatedFromAbove ⟨none⟩ = false ∧
    getTerminatorStatus ⟨none⟩ = .unknown ∧
    isKnownTerminator ⟨none⟩ = false ∧
    isKnownNonTerminator ⟨none⟩ = false :=
  unregistered_property_defaults ⟨none⟩ rfl

end Mlir
